import Mathlib

/-!
Verification of the Stocks repository (src/app/stocks.py).

The file embeds the three core routines of the repository as pure Lean
functions and proves the frozen claims about them:

  * `fetch_stock_data`      — the single-ticker fetcher (`Stock.fetch_stock_data`),
  * `fetch_multiple_stocks` — the batch fetch coordinator with the retry loop
                              (`Stock.fetch_multiple_stocks`),
  * `load_stock_tickers`    — the ticker directory loader (`Stock.load_stock_tickers`).

External collaborators (the market-data provider `yfinance` and the indicator
library `ta`) are not part of the repository; the provider is modelled as an
environment describing the outcome of each call, and the indicator library is
modelled from the spec's stated contract (aligned series whose first
window−1 entries are undefined).  Exceptions in the Python code are modelled
with `Option`/explicit outcome types; machine floats are modelled with `ℚ`
(no claim depends on float rounding).
-/

/-- One OHLCV row of the provider's price history (`stock.history(period="6mo")`).
Prices and volume are modelled as rationals. -/
structure PriceRow where
  opn : ℚ
  high : ℚ
  low : ℚ
  close : ℚ
  volume : ℚ
deriving DecidableEq, Repr

/-- The close-price column of a price frame (`data["Close"]`). -/
def closes (rows : List PriceRow) : List ℚ :=
  rows.map PriceRow.close

/-- Modelled from the spec: the external indicator library's simple moving
average (`ta.trend.sma_indicator(close, window)`), a pure transform returning
a series aligned with `close` whose first window−1 entries are undefined
(absent), with the trailing-window mean from index window−1 (0-based) on. -/
def sma_indicator (close : List ℚ) (window : Nat) : List (Option ℚ) :=
  (List.range close.length).map fun i =>
    if window ≤ i + 1 then
      some ((((close.drop (i + 1 - window)).take window).sum) / window)
    else none

/-- Running exponential average with smoothing factor `a`, seeded at `prev`. -/
def emaFrom (a : ℚ) : ℚ → List ℚ → List ℚ
  | _, [] => []
  | prev, x :: xs =>
    let y := a * x + (1 - a) * prev
    y :: emaFrom a y xs

/-- The raw exponential-average sequence over the whole series (seeded at the
first element, smoothing factor 2/(window+1)). -/
def ema_all (window : Nat) (close : List ℚ) : List ℚ :=
  match close with
  | [] => []
  | x :: xs => x :: emaFrom (2 / ((window : ℚ) + 1)) x xs

/-- Modelled from the spec: the external indicator library's exponential moving
average (`ta.trend.ema_indicator(close, window)`), a pure transform returning a
series aligned with `close` whose first window−1 entries are undefined. -/
def ema_indicator (close : List ℚ) (window : Nat) : List (Option ℚ) :=
  (List.range close.length).map fun i =>
    if window ≤ i + 1 then some ((ema_all window close).getD i 0) else none

/-- The relative-strength value at index `i` over the trailing `window`
close-to-close differences (gain/loss averages, RSI formula). -/
def rsiValue (close : List ℚ) (window : Nat) (i : Nat) : ℚ :=
  let ds := (List.range window).map fun j =>
    close.getD (i - j) 0 - close.getD (i - j - 1) 0
  let gain := (ds.map fun d => max d 0).sum / window
  let loss := (ds.map fun d => max (-d) 0).sum / window
  if loss = 0 then 100 else 100 - 100 / (1 + gain / loss)

/-- Modelled from the spec: the external indicator library's relative-strength
index (`ta.momentum.rsi(close, window)`), a pure transform returning a series
aligned with `close` whose first window−1 entries are undefined. -/
def rsi (close : List ℚ) (window : Nat) : List (Option ℚ) :=
  (List.range close.length).map fun i =>
    if window ≤ i + 1 then some (rsiValue close window i) else none

/-- The frame returned on a successful single-ticker fetch: the price rows with
the three indicator columns appended (`SMA_20`, `EMA_20`, `RSI_14`). -/
structure StockFrame where
  rows : List PriceRow
  sma20 : List (Option ℚ)
  ema20 : List (Option ℚ)
  rsi14 : List (Option ℚ)
deriving DecidableEq, Repr

/-- The price frame with the three indicator columns attached, exactly as the
body of `fetch_stock_data` builds it (lines 33–35 of stocks.py). -/
def withIndicators (rows : List PriceRow) : StockFrame :=
  ⟨rows, sma_indicator (closes rows) 20, ema_indicator (closes rows) 20,
    rsi (closes rows) 14⟩

/-- The outcome of the provider call `yf.Ticker(t).history(period="6mo")` for
one invocation: either the call raises, or it returns a (possibly empty)
price frame. -/
inductive FetchOutcome where
  | raise : FetchOutcome
  | history : List PriceRow → FetchOutcome
deriving DecidableEq, Repr

/-- Embedding of `Stock.fetch_stock_data` (stocks.py lines 25–39): the
`try` block fetches the history; an empty frame yields `None`; otherwise the
three indicator columns are attached and the frame returned; any exception is
caught and collapsed to `None`.  Totality of this function is the "never
raises to its caller" contract. -/
def fetch_stock_data (o : FetchOutcome) : Option StockFrame :=
  match o with
  | .raise => none
  | .history rows => if rows.isEmpty then none else some (withIndicators rows)

theorem fetch_stock_data_history_ne_nil (rows : List PriceRow) (h : rows ≠ []) :
    fetch_stock_data (FetchOutcome.history rows) = some (withIndicators rows) := by
  cases rows with
  | nil => exact absurd rfl h
  | cons a l => rfl

/-- Element access for the uniform range-map shape of the indicator series. -/
theorem getD_range_map {α : Type} (f : Nat → α) (n i : Nat) (d : α) (h : i < n) :
    ((List.range n).map f).getD i d = f i := by
  rw [List.getD_eq_getElem?_getD, List.getElem?_map, List.getElem?_range h]
  rfl

/-- A parsed delimited table (the shape `pd.read_csv` produces): a header row
and data rows of cells. -/
structure CsvTable where
  headers : List String
  rows : List (List String)
deriving DecidableEq, Repr

/-- The outcome of `pd.read_csv(file_path)`: either the read/parse raises
(missing file, malformed contents) or it yields a parsed table. -/
inductive ReadOutcome where
  | raise : ReadOutcome
  | table : CsvTable → ReadOutcome
deriving DecidableEq, Repr

/-- Index of the first column with the given header name (`df[name]` lookup);
`none` when the column is missing (pandas raises `KeyError`, caught by the
`except` in `load_stock_tickers`). -/
def colIndex (headers : List String) (name : String) : Option Nat :=
  match headers with
  | [] => none
  | h :: rest => if h = name then some 0 else (colIndex rest name).map (· + 1)

/-- The cells of the named column, or `none` when the header is missing. -/
def selectColumn (t : CsvTable) (name : String) : Option (List String) :=
  match colIndex t.headers name with
  | some i => some (t.rows.map fun r => r.getD i "")
  | none => none

/-- Embedding of `Stock.load_stock_tickers` (stocks.py lines 76–80): read the
file, select the two columns named exactly "ACT Symbol" and "Company Name",
and rename them to "Ticker" and "Company"; any exception (failed read, missing
column) is caught and collapsed to `None`.  Totality of this function is the
"never raises" contract. -/
def load_stock_tickers (r : ReadOutcome) : Option CsvTable :=
  match r with
  | .raise => none
  | .table t =>
    match selectColumn t "ACT Symbol", selectColumn t "Company Name" with
    | some c1, some c2 =>
        some ⟨["Ticker", "Company"], List.zipWith (fun a b => [a, b]) c1 c2⟩
    | some _, none => none
    | none, _ => none

theorem load_stock_tickers_table (t : CsvTable) :
    load_stock_tickers (ReadOutcome.table t) =
      match selectColumn t "ACT Symbol", selectColumn t "Company Name" with
      | some c1, some c2 =>
          some ⟨["Ticker", "Company"], List.zipWith (fun a b => [a, b]) c1 c2⟩
      | some _, none => none
      | none, _ => none := rfl

theorem colIndex_isSome_iff (headers : List String) (name : String) :
    (colIndex headers name).isSome = true ↔ name ∈ headers := by
  induction headers with
  | nil => simp [colIndex]
  | cons h rest ih =>
    by_cases hh : h = name
    · subst hh; simp [colIndex]
    · simp [colIndex, hh, Option.isSome_map, ih, Ne.symm hh]

theorem selectColumn_isSome_iff (t : CsvTable) (name : String) :
    (selectColumn t name).isSome = true ↔ name ∈ t.headers := by
  rw [← colIndex_isSome_iff t.headers name]
  unfold selectColumn
  cases colIndex t.headers name <;> simp

theorem selectColumn_length (t : CsvTable) (name : String) (c : List String)
    (h : selectColumn t name = some c) : c.length = t.rows.length := by
  unfold selectColumn at h
  cases hc : colIndex t.headers name with
  | none => rw [hc] at h; exact Option.noConfusion h
  | some i =>
    rw [hc] at h
    cases h
    exact List.length_map t.rows _

/-- The batch result `stock_data`: a Python dict from ticker to frame, as an
insertion-ordered association list with unique keys. -/
abbrev StockMap := List (String × StockFrame)

/-- The key list of a dict, in insertion order. -/
def dictKeys {α : Type} (m : List (String × α)) : List String :=
  m.map Prod.fst

/-- Python dict assignment `m[k] = v`: replace in place when the key exists,
otherwise append. -/
def dictInsert {α : Type} (m : List (String × α)) (k : String) (v : α) :
    List (String × α) :=
  if k ∈ dictKeys m then
    m.map fun p => if p.1 = k then (k, v) else p
  else m ++ [(k, v)]

/-- The result-collection loop over resolved futures (stocks.py lines 57–61):
for each processed ticker, record its fetch result under its key when the
result is not `None`. -/
def collectResults (fetch : String → Option StockFrame) :
    List String → StockMap → StockMap
  | [], acc => acc
  | t :: ts, acc =>
    match fetch t with
    | some d => collectResults fetch ts (dictInsert acc t d)
    | none => collectResults fetch ts acc

/-- Observable outcome of one call to `fetch_multiple_stocks`: the returned
dict, the number of batch attempts started, the total time slept between
attempts, and the number of per-ticker fetch invocations (one per submitted
task; every submitted task runs to completion). -/
structure BatchRun where
  result : StockMap
  attemptsUsed : Nat
  sleepTime : Nat
  fetchCalls : Nat
deriving DecidableEq, Repr

/-- Environment of one `fetch_multiple_stocks` call: `outcome i t` is what the
provider does for ticker `t` during batch attempt `i` (attempts are 0-based);
`raisesAt i = none` means attempt `i`'s concurrent run completes normally,
while `raisesAt i = some l` means the run raises an exception after the
futures of the tickers in `l` have been processed by the collection loop
(the exception is modelled at the result-collection phase; submitted tasks
still run, and `fetch_stock_data` itself never raises). -/
structure BatchEnv where
  outcome : Nat → String → FetchOutcome
  raisesAt : Nat → Option (List String)

/-- The per-attempt fetch function the coordinator uses: attempt `i` calls
`self.fetch_stock_data(t)` against that attempt's provider outcome. -/
def fetchOf (env : BatchEnv) (i : Nat) (t : String) : Option StockFrame :=
  fetch_stock_data (env.outcome i t)

/-- The tickers whose futures the collection loop processes during attempt
`i`: all of them when the attempt completes, otherwise the prefix recorded
before the exception. -/
def procAt (raisesAt : Nat → Option (List String)) (tickers : List String)
    (i : Nat) : List String :=
  match raisesAt i with
  | none => tickers
  | some l => l

/-- The attempt loop of `fetch_multiple_stocks` (stocks.py lines 52–66):
`n` is the number of attempts left, `idx` the index of the next attempt,
`sd` the accumulated `stock_data` dict (initialised once, before the loop),
`slept`/`calls` the accumulated sleep time and fetch invocations.  A normal
attempt records all tickers' results and returns; a raising attempt records
the processed prefix, sleeps 5, and retries; exhaustion returns a fresh
empty dict. -/
def fetchLoop (fetch : Nat → String → Option StockFrame)
    (raisesAt : Nat → Option (List String)) (tickers : List String) :
    Nat → Nat → StockMap → Nat → Nat → BatchRun
  | 0, idx, _, slept, calls => ⟨[], idx, slept, calls⟩
  | n + 1, idx, sd, slept, calls =>
    match raisesAt idx with
    | none =>
        ⟨collectResults (fetch idx) tickers sd, idx + 1, slept,
          calls + tickers.length⟩
    | some processed =>
        fetchLoop fetch raisesAt tickers n (idx + 1)
          (collectResults (fetch idx) processed sd) (slept + 5)
          (calls + tickers.length)

/-- Embedding of `Stock.fetch_multiple_stocks` (stocks.py lines 42–66). -/
def fetch_multiple_stocks (env : BatchEnv) (tickers : List String)
    (max_attempts : Nat) : BatchRun :=
  fetchLoop (fetchOf env) env.raisesAt tickers max_attempts 0 [] 0 0

theorem fetchLoop_complete (fetch : Nat → String → Option StockFrame)
    (raisesAt : Nat → Option (List String)) (tickers : List String)
    (n idx : Nat) (sd : StockMap) (slept calls : Nat)
    (h : raisesAt idx = none) :
    fetchLoop fetch raisesAt tickers (n + 1) idx sd slept calls =
      ⟨collectResults (fetch idx) tickers sd, idx + 1, slept,
        calls + tickers.length⟩ := by
  simp [fetchLoop, h]

theorem fetchLoop_raise (fetch : Nat → String → Option StockFrame)
    (raisesAt : Nat → Option (List String)) (tickers : List String)
    (n idx : Nat) (sd : StockMap) (slept calls : Nat) (l : List String)
    (h : raisesAt idx = some l) :
    fetchLoop fetch raisesAt tickers (n + 1) idx sd slept calls =
      fetchLoop fetch raisesAt tickers n (idx + 1)
        (collectResults (fetch idx) l sd) (slept + 5)
        (calls + tickers.length) := by
  simp [fetchLoop, h]

theorem dictKeys_replace {α : Type} (m : List (String × α)) (k : String)
    (v : α) :
    dictKeys (m.map fun p => if p.1 = k then (k, v) else p) = dictKeys m := by
  induction m with
  | nil => rfl
  | cons p m ih =>
    by_cases hp : p.1 = k
    · simp only [dictKeys, List.map_cons, if_pos hp]
      simp only [dictKeys] at ih
      rw [ih, hp]
    · simp only [dictKeys, List.map_cons, if_neg hp]
      simp only [dictKeys] at ih
      rw [ih]

theorem dictKeys_dictInsert {α : Type} (m : List (String × α)) (k : String)
    (v : α) :
    dictKeys (dictInsert m k v) =
      if k ∈ dictKeys m then dictKeys m else dictKeys m ++ [k] := by
  unfold dictInsert
  by_cases h : k ∈ dictKeys m
  · rw [if_pos h, if_pos h, dictKeys_replace]
  · rw [if_neg h, if_neg h]
    simp [dictKeys]

theorem mem_dictKeys_dictInsert {α : Type} (m : List (String × α))
    (k a : String) (v : α) :
    a ∈ dictKeys (dictInsert m k v) ↔ a ∈ dictKeys m ∨ a = k := by
  rw [dictKeys_dictInsert]
  by_cases h : k ∈ dictKeys m
  · rw [if_pos h]
    constructor
    · exact Or.inl
    · rintro (ha | rfl)
      · exact ha
      · exact h
  · rw [if_neg h]
    simp

theorem nodup_dictKeys_dictInsert {α : Type} (m : List (String × α))
    (k : String) (v : α) (h : (dictKeys m).Nodup) :
    (dictKeys (dictInsert m k v)).Nodup := by
  rw [dictKeys_dictInsert]
  by_cases hk : k ∈ dictKeys m
  · rw [if_pos hk]; exact h
  · rw [if_neg hk]
    rw [List.nodup_append]
    refine ⟨h, List.nodup_singleton k, ?_⟩
    intro a ha hak
    rw [List.mem_singleton] at hak
    subst hak
    exact hk ha

theorem mem_dictKeys_collectResults (fetch : String → Option StockFrame) :
    ∀ (ts : List String) (acc : StockMap) (a : String),
      a ∈ dictKeys (collectResults fetch ts acc) ↔
        a ∈ dictKeys acc ∨ (a ∈ ts ∧ (fetch a).isSome = true) := by
  intro ts
  induction ts with
  | nil => intro acc a; simp [collectResults]
  | cons t ts ih =>
    intro acc a
    cases hft : fetch t with
    | none =>
      rw [collectResults, hft, ih]
      constructor
      · rintro (ha | ⟨hts, hs⟩)
        · exact Or.inl ha
        · exact Or.inr ⟨List.mem_cons_of_mem t hts, hs⟩
      · rintro (ha | ⟨hts, hs⟩)
        · exact Or.inl ha
        · rcases List.mem_cons.mp hts with rfl | hts
          · rw [hft] at hs; exact absurd hs (by simp)
          · exact Or.inr ⟨hts, hs⟩
    | some d =>
      rw [collectResults, hft, ih, mem_dictKeys_dictInsert]
      constructor
      · rintro ((ha | rfl) | ⟨hts, hs⟩)
        · exact Or.inl ha
        · exact Or.inr ⟨List.mem_cons_self a ts, by rw [hft]; rfl⟩
        · exact Or.inr ⟨List.mem_cons_of_mem t hts, hs⟩
      · rintro (ha | ⟨hts, hs⟩)
        · exact Or.inl (Or.inl ha)
        · rcases List.mem_cons.mp hts with rfl | hts
          · exact Or.inl (Or.inr rfl)
          · exact Or.inr ⟨hts, hs⟩

theorem nodup_dictKeys_collectResults (fetch : String → Option StockFrame) :
    ∀ (ts : List String) (acc : StockMap), (dictKeys acc).Nodup →
      (dictKeys (collectResults fetch ts acc)).Nodup := by
  intro ts
  induction ts with
  | nil => intro acc h; exact h
  | cons t ts ih =>
    intro acc h
    cases hft : fetch t with
    | none => rw [collectResults, hft]; exact ih acc h
    | some d =>
      rw [collectResults, hft]
      exact ih _ (nodup_dictKeys_dictInsert acc t d h)

theorem collectResults_all_none (fetch : String → Option StockFrame) :
    ∀ (ts : List String) (acc : StockMap),
      (∀ t ∈ ts, fetch t = none) → collectResults fetch ts acc = acc := by
  intro ts
  induction ts with
  | nil => intro acc _; rfl
  | cons t ts ih =>
    intro acc h
    rw [collectResults, h t (List.mem_cons_self t ts)]
    exact ih acc fun u hu => h u (List.mem_cons_of_mem t hu)

theorem exists_le_succ_shift (Q : Nat → Prop) (idx J : Nat) :
    (∃ j, j ≤ J + 1 ∧ Q (idx + j)) ↔
      Q idx ∨ ∃ j, j ≤ J ∧ Q (idx + 1 + j) := by
  constructor
  · rintro ⟨j, hj, hq⟩
    cases j with
    | zero => exact Or.inl (by simpa using hq)
    | succ j =>
      refine Or.inr ⟨j, by omega, ?_⟩
      have e : idx + 1 + j = idx + (j + 1) := by omega
      rw [e]
      exact hq
  · rintro (hq | ⟨j, hj, hq⟩)
    · exact ⟨0, by omega, by simpa using hq⟩
    · refine ⟨j + 1, by omega, ?_⟩
      have e : idx + (j + 1) = idx + 1 + j := by omega
      rw [e]
      exact hq

theorem fetchLoop_exhausts (fetch : Nat → String → Option StockFrame)
    (raisesAt : Nat → Option (List String)) (tickers : List String) :
    ∀ (n idx : Nat) (sd : StockMap) (slept calls : Nat),
      (∀ j, j < n → raisesAt (idx + j) ≠ none) →
      fetchLoop fetch raisesAt tickers n idx sd slept calls =
        ⟨[], idx + n, slept + 5 * n, calls + n * tickers.length⟩ := by
  intro n
  induction n with
  | zero => intro idx sd slept calls _; simp [fetchLoop]
  | succ n ih =>
    intro idx sd slept calls h
    obtain ⟨l, hl⟩ : ∃ l, raisesAt idx = some l := by
      cases hr : raisesAt idx with
      | none => exact absurd (by simpa using hr) (by simpa using h 0 (by omega))
      | some l => exact ⟨l, rfl⟩
    rw [fetchLoop_raise fetch raisesAt tickers n idx sd slept calls l hl]
    rw [ih (idx + 1) _ (slept + 5) (calls + tickers.length)
      (fun j hj => by
        have := h (j + 1) (by omega)
        have e : idx + (j + 1) = idx + 1 + j := by omega
        rw [e] at this
        exact this)]
    have e1 : idx + 1 + n = idx + (n + 1) := by omega
    have e2 : slept + 5 + 5 * n = slept + 5 * (n + 1) := by ring
    have e3 : calls + tickers.length + n * tickers.length =
        calls + (n + 1) * tickers.length := by ring
    rw [e1, e2, e3]

theorem fetchLoop_attempts_le (fetch : Nat → String → Option StockFrame)
    (raisesAt : Nat → Option (List String)) (tickers : List String) :
    ∀ (n idx : Nat) (sd : StockMap) (slept calls : Nat),
      (fetchLoop fetch raisesAt tickers n idx sd slept calls).attemptsUsed ≤
        idx + n := by
  intro n
  induction n with
  | zero => intro idx sd slept calls; simp [fetchLoop]
  | succ n ih =>
    intro idx sd slept calls
    cases hr : raisesAt idx with
    | none =>
      rw [fetchLoop_complete fetch raisesAt tickers n idx sd slept calls hr]
      show idx + 1 ≤ idx + (n + 1)
      omega
    | some l =>
      rw [fetchLoop_raise fetch raisesAt tickers n idx sd slept calls l hr]
      have := ih (idx + 1) (collectResults (fetch idx) l sd) (slept + 5)
        (calls + tickers.length)
      omega

theorem fetchLoop_first_complete_stats (fetch : Nat → String → Option StockFrame)
    (raisesAt : Nat → Option (List String)) (tickers : List String) :
    ∀ (J n idx : Nat) (sd : StockMap) (slept calls : Nat), J < n →
      raisesAt (idx + J) = none →
      (∀ j, j < J → raisesAt (idx + j) ≠ none) →
      (fetchLoop fetch raisesAt tickers n idx sd slept calls).attemptsUsed =
          idx + J + 1 ∧
      (fetchLoop fetch raisesAt tickers n idx sd slept calls).sleepTime =
          slept + 5 * J := by
  intro J
  induction J with
  | zero =>
    intro n idx sd slept calls hJ hc _
    obtain ⟨m, rfl⟩ : ∃ m, n = m + 1 := ⟨n - 1, by omega⟩
    rw [fetchLoop_complete fetch raisesAt tickers m idx sd slept calls
      (by simpa using hc)]
    exact ⟨rfl, rfl⟩
  | succ J ih =>
    intro n idx sd slept calls hJ hc hf
    obtain ⟨m, rfl⟩ : ∃ m, n = m + 1 := ⟨n - 1, by omega⟩
    obtain ⟨l, hl⟩ : ∃ l, raisesAt idx = some l := by
      cases hr : raisesAt idx with
      | none => exact absurd (by simpa using hr) (by simpa using hf 0 (by omega))
      | some l => exact ⟨l, rfl⟩
    rw [fetchLoop_raise fetch raisesAt tickers m idx sd slept calls l hl]
    have hc1 : raisesAt (idx + 1 + J) = none := by
      have e : idx + 1 + J = idx + (J + 1) := by omega
      rw [e]
      exact hc
    have hf1 : ∀ j, j < J → raisesAt (idx + 1 + j) ≠ none := fun j hj => by
      have := hf (j + 1) (by omega)
      have e : idx + (j + 1) = idx + 1 + j := by omega
      rw [e] at this
      exact this
    obtain ⟨h1, h2⟩ := ih m (idx + 1) (collectResults (fetch idx) l sd)
      (slept + 5) (calls + tickers.length) (by omega) hc1 hf1
    exact ⟨by omega, by omega⟩

theorem mem_dictKeys_fetchLoop (fetch : Nat → String → Option StockFrame)
    (raisesAt : Nat → Option (List String)) (tickers : List String) :
    ∀ (J n idx : Nat) (sd : StockMap) (slept calls : Nat) (a : String),
      J < n → raisesAt (idx + J) = none →
      (∀ j, j < J → raisesAt (idx + j) ≠ none) →
      (a ∈ dictKeys (fetchLoop fetch raisesAt tickers n idx sd slept
          calls).result ↔
        a ∈ dictKeys sd ∨ ∃ j, j ≤ J ∧ a ∈ procAt raisesAt tickers (idx + j) ∧
          (fetch (idx + j) a).isSome = true) := by
  intro J
  induction J with
  | zero =>
    intro n idx sd slept calls a hJ hc _
    obtain ⟨m, rfl⟩ : ∃ m, n = m + 1 := ⟨n - 1, by omega⟩
    have hc0 : raisesAt idx = none := by simpa using hc
    rw [fetchLoop_complete fetch raisesAt tickers m idx sd slept calls hc0]
    rw [mem_dictKeys_collectResults]
    have hp : procAt raisesAt tickers idx = tickers := by
      unfold procAt
      rw [hc0]
    constructor
    · rintro (ha | ⟨hts, hs⟩)
      · exact Or.inl ha
      · exact Or.inr ⟨0, by omega, by simpa [hp] using hts, by simpa using hs⟩
    · rintro (ha | ⟨j, hj, hts, hs⟩)
      · exact Or.inl ha
      · obtain rfl : j = 0 := by omega
        exact Or.inr ⟨by simpa [hp] using hts, by simpa using hs⟩
  | succ J ih =>
    intro n idx sd slept calls a hJ hc hf
    obtain ⟨m, rfl⟩ : ∃ m, n = m + 1 := ⟨n - 1, by omega⟩
    obtain ⟨l, hl⟩ : ∃ l, raisesAt idx = some l := by
      cases hr : raisesAt idx with
      | none => exact absurd (by simpa using hr) (by simpa using hf 0 (by omega))
      | some l => exact ⟨l, rfl⟩
    rw [fetchLoop_raise fetch raisesAt tickers m idx sd slept calls l hl]
    have hc1 : raisesAt (idx + 1 + J) = none := by
      have e : idx + 1 + J = idx + (J + 1) := by omega
      rw [e]
      exact hc
    have hf1 : ∀ j, j < J → raisesAt (idx + 1 + j) ≠ none := fun j hj => by
      have := hf (j + 1) (by omega)
      have e : idx + (j + 1) = idx + 1 + j := by omega
      rw [e] at this
      exact this
    rw [ih m (idx + 1) (collectResults (fetch idx) l sd) (slept + 5)
      (calls + tickers.length) a (by omega) hc1 hf1]
    rw [mem_dictKeys_collectResults]
    rw [exists_le_succ_shift
      (fun i => a ∈ procAt raisesAt tickers i ∧ (fetch i a).isSome = true)
      idx J]
    have hp : procAt raisesAt tickers idx = l := by
      unfold procAt
      rw [hl]
    rw [hp]
    tauto

theorem nodup_dictKeys_fetchLoop (fetch : Nat → String → Option StockFrame)
    (raisesAt : Nat → Option (List String)) (tickers : List String) :
    ∀ (n idx : Nat) (sd : StockMap) (slept calls : Nat),
      (dictKeys sd).Nodup →
      (dictKeys (fetchLoop fetch raisesAt tickers n idx sd slept
        calls).result).Nodup := by
  intro n
  induction n with
  | zero => intro idx sd slept calls _; simp [fetchLoop, dictKeys]
  | succ n ih =>
    intro idx sd slept calls h
    cases hr : raisesAt idx with
    | none =>
      rw [fetchLoop_complete fetch raisesAt tickers n idx sd slept calls hr]
      exact nodup_dictKeys_collectResults (fetch idx) tickers sd h
    | some l =>
      rw [fetchLoop_raise fetch raisesAt tickers n idx sd slept calls l hr]
      exact ih (idx + 1) _ (slept + 5) (calls + tickers.length)
        (nodup_dictKeys_collectResults (fetch idx) l sd h)

theorem procAt_subset (raisesAt : Nat → Option (List String))
    (tickers : List String)
    (hwf : ∀ i l, raisesAt i = some l → l ⊆ tickers) (i : Nat) :
    procAt raisesAt tickers i ⊆ tickers := by
  unfold procAt
  cases hr : raisesAt i with
  | none => exact fun a ha => ha
  | some l => exact hwf i l hr

theorem sma_indicator_getD (close : List ℚ) (window i : Nat)
    (h : i < close.length) :
    (sma_indicator close window).getD i none =
      if window ≤ i + 1 then
        some ((((close.drop (i + 1 - window)).take window).sum) / window)
      else none := by
  unfold sma_indicator
  exact getD_range_map _ close.length i none h

theorem ema_indicator_getD (close : List ℚ) (window i : Nat)
    (h : i < close.length) :
    (ema_indicator close window).getD i none =
      if window ≤ i + 1 then some ((ema_all window close).getD i 0)
      else none := by
  unfold ema_indicator
  exact getD_range_map _ close.length i none h

theorem rsi_getD (close : List ℚ) (window i : Nat) (h : i < close.length) :
    (rsi close window).getD i none =
      if window ≤ i + 1 then some (rsiValue close window i) else none := by
  unfold rsi
  exact getD_range_map _ close.length i none h

/-- Claim C2: for every input, the single-ticker fetcher never raises to its
caller (it is a total function into `Option`): when the provider raises or
returns an empty frame the result is the single absent value `none`, with no
distinction between failure causes, and on success it returns the price frame
with the indicator columns attached. -/
theorem c2_single_fetcher_never_raises :
    fetch_stock_data FetchOutcome.raise = none ∧
    fetch_stock_data (FetchOutcome.history []) = none ∧
    (∀ rows : List PriceRow, rows ≠ [] →
      fetch_stock_data (FetchOutcome.history rows) =
        some (withIndicators rows)) ∧
    (∀ o : FetchOutcome, fetch_stock_data o = none ↔
      (o = FetchOutcome.raise ∨ o = FetchOutcome.history [])) := by
  refine ⟨rfl, rfl, fetch_stock_data_history_ne_nil, ?_⟩
  intro o
  cases o with
  | raise => simp [fetch_stock_data]
  | history rows =>
    cases rows with
    | nil => simp [fetch_stock_data]
    | cons a l => simp [fetch_stock_data]

/-- Sample price frame: 20 rows with distinct close prices. -/
def rows20 : List PriceRow :=
  (List.range 20).map fun n => ⟨(n : ℚ), (n : ℚ), (n : ℚ), (n : ℚ), (n : ℚ)⟩

/-- Witness for claim C2 at concrete inputs. -/
theorem c2_witness :
    fetch_stock_data FetchOutcome.raise = none ∧
    fetch_stock_data (FetchOutcome.history []) = none ∧
    fetch_stock_data (FetchOutcome.history rows20) =
      some (withIndicators rows20) ∧
    (fetch_stock_data FetchOutcome.raise = none ↔
      (FetchOutcome.raise = FetchOutcome.raise ∨
        FetchOutcome.raise = FetchOutcome.history [])) := by
  obtain ⟨h1, h2, h3, h4⟩ := c2_single_fetcher_never_raises
  exact ⟨h1, h2, h3 rows20 (by decide), h4 FetchOutcome.raise⟩

/-- Claim C5: on every successful fetch the single-ticker fetcher appends
three indicator series (SMA-20, EMA-20, RSI-14 of close), each as long as the
price series; the first 19 entries of SMA-20/EMA-20 and the first 13 entries
of RSI-14 are absent, with defined values from 0-based index 19 resp. 13
(1-based index 20 resp. 14) onward.  The indicator library is modelled from
the spec (first window−1 entries undefined). -/
theorem c5_indicator_shape (rows : List PriceRow) (hne : rows ≠ []) :
    fetch_stock_data (FetchOutcome.history rows) = some (withIndicators rows) ∧
    (withIndicators rows).rows = rows ∧
    (withIndicators rows).sma20.length = rows.length ∧
    (withIndicators rows).ema20.length = rows.length ∧
    (withIndicators rows).rsi14.length = rows.length ∧
    (∀ i, i < rows.length →
      (((withIndicators rows).sma20.getD i none).isSome = true ↔ 19 ≤ i)) ∧
    (∀ i, i < rows.length →
      (((withIndicators rows).ema20.getD i none).isSome = true ↔ 19 ≤ i)) ∧
    (∀ i, i < rows.length →
      (((withIndicators rows).rsi14.getD i none).isSome = true ↔ 13 ≤ i)) := by
  have hlen : (closes rows).length = rows.length := List.length_map rows _
  refine ⟨fetch_stock_data_history_ne_nil rows hne, rfl, ?_, ?_, ?_, ?_, ?_, ?_⟩
  · simp [withIndicators, sma_indicator, hlen]
  · simp [withIndicators, ema_indicator, hlen]
  · simp [withIndicators, rsi, hlen]
  · intro i hi
    show ((sma_indicator (closes rows) 20).getD i none).isSome = true ↔ 19 ≤ i
    rw [sma_indicator_getD (closes rows) 20 i (by omega)]
    by_cases h20 : 20 ≤ i + 1
    · rw [if_pos h20]
      simp
      omega
    · rw [if_neg h20]
      simp
      omega
  · intro i hi
    show ((ema_indicator (closes rows) 20).getD i none).isSome = true ↔ 19 ≤ i
    rw [ema_indicator_getD (closes rows) 20 i (by omega)]
    by_cases h20 : 20 ≤ i + 1
    · rw [if_pos h20]
      simp
      omega
    · rw [if_neg h20]
      simp
      omega
  · intro i hi
    show ((rsi (closes rows) 14).getD i none).isSome = true ↔ 13 ≤ i
    rw [rsi_getD (closes rows) 14 i (by omega)]
    by_cases h14 : 14 ≤ i + 1
    · rw [if_pos h14]
      simp
      omega
    · rw [if_neg h14]
      simp
      omega

/-- Witness for claim C5 at a concrete 20-row frame. -/
theorem c5_witness :
    fetch_stock_data (FetchOutcome.history rows20) =
      some (withIndicators rows20) ∧
    ¬ (((withIndicators rows20).sma20.getD 0 none).isSome = true) ∧
    ((withIndicators rows20).sma20.getD 19 none).isSome = true ∧
    ¬ (((withIndicators rows20).ema20.getD 0 none).isSome = true) ∧
    ((withIndicators rows20).ema20.getD 19 none).isSome = true ∧
    ¬ (((withIndicators rows20).rsi14.getD 12 none).isSome = true) ∧
    ((withIndicators rows20).rsi14.getD 13 none).isSome = true := by
  have hne : rows20 ≠ [] := by decide
  obtain ⟨h1, _, _, _, _, hsma, hema, hrsi⟩ := c5_indicator_shape rows20 hne
  have hlen : rows20.length = 20 := by decide
  refine ⟨h1, ?_, ?_, ?_, ?_, ?_, ?_⟩
  · intro h
    have := (hsma 0 (by omega)).mp h
    omega
  · exact (hsma 19 (by omega)).mpr (by omega)
  · intro h
    have := (hema 0 (by omega)).mp h
    omega
  · exact (hema 19 (by omega)).mpr (by omega)
  · intro h
    have := (hrsi 12 (by omega)).mp h
    omega
  · exact (hrsi 13 (by omega)).mpr (by omega)

/-- Claim C8: on a missing file or any read error the loader returns absent
(and, being total, never raises); on a table containing the two expected
columns it returns a table with exactly the columns Ticker and Company and
the same row count as the source. -/
theorem c8_loader_shape (t : CsvTable)
    (h1 : "ACT Symbol" ∈ t.headers) (h2 : "Company Name" ∈ t.headers) :
    load_stock_tickers ReadOutcome.raise = none ∧
    (load_stock_tickers (ReadOutcome.table t)).map CsvTable.headers =
      some ["Ticker", "Company"] ∧
    (load_stock_tickers (ReadOutcome.table t)).map (fun o => o.rows.length) =
      some t.rows.length := by
  obtain ⟨c1, hc1⟩ :=
    Option.isSome_iff_exists.mp ((selectColumn_isSome_iff t _).mpr h1)
  obtain ⟨c2, hc2⟩ :=
    Option.isSome_iff_exists.mp ((selectColumn_isSome_iff t _).mpr h2)
  have l1 := selectColumn_length t "ACT Symbol" c1 hc1
  have l2 := selectColumn_length t "Company Name" c2 hc2
  have heq : load_stock_tickers (ReadOutcome.table t) =
      some ⟨["Ticker", "Company"], List.zipWith (fun a b => [a, b]) c1 c2⟩ := by
    rw [load_stock_tickers_table, hc1, hc2]
  refine ⟨rfl, ?_, ?_⟩
  · rw [heq]
    rfl
  · rw [heq]
    simp [l1, l2]

/-- Directory source table whose headers match the loader's expectations. -/
def exTable : CsvTable :=
  ⟨["ACT Symbol", "Company Name"], [["AA", "Alcoa Corp"], ["IBM", "IBM Corp"]]⟩

/-- Well-formed two-column symbol/name table with different header names. -/
def badTable : CsvTable :=
  ⟨["Symbol", "Name"], [["AA", "Alcoa Corp"]]⟩

/-- Witness for claim C8 at a concrete well-formed table. -/
theorem c8_witness :
    load_stock_tickers ReadOutcome.raise = none ∧
    (load_stock_tickers (ReadOutcome.table exTable)).map CsvTable.headers =
      some ["Ticker", "Company"] ∧
    (load_stock_tickers (ReadOutcome.table exTable)).map
      (fun o => o.rows.length) = some exTable.rows.length := by
  exact c8_loader_shape exTable (List.mem_cons_self _ _)
    (List.mem_cons_of_mem _ (List.mem_cons_self _ _))

/-- Claim C10: the loader succeeds exactly on tables whose headers include the
literal column names "ACT Symbol" and "Company Name"; a table lacking either
one — even a well-formed two-column symbol/name table with different header
names — yields absent. -/
theorem c10_loader_exact_headers (t : CsvTable) :
    ((load_stock_tickers (ReadOutcome.table t)).isSome = true ↔
      ("ACT Symbol" ∈ t.headers ∧ "Company Name" ∈ t.headers)) ∧
    (("ACT Symbol" ∉ t.headers ∨ "Company Name" ∉ t.headers) →
      load_stock_tickers (ReadOutcome.table t) = none) := by
  have m1 := selectColumn_isSome_iff t "ACT Symbol"
  have m2 := selectColumn_isSome_iff t "Company Name"
  cases hc1 : selectColumn t "ACT Symbol" with
  | none =>
    rw [hc1] at m1
    simp only [Option.isSome_none, Bool.false_eq_true, false_iff] at m1
    cases hc2 : selectColumn t "Company Name" with
    | none =>
      have heq : load_stock_tickers (ReadOutcome.table t) = none := by
        rw [load_stock_tickers_table, hc1, hc2]
      rw [heq]
      refine ⟨?_, fun _ => rfl⟩
      simp
      tauto
    | some c2 =>
      have heq : load_stock_tickers (ReadOutcome.table t) = none := by
        rw [load_stock_tickers_table, hc1, hc2]
      rw [heq]
      refine ⟨?_, fun _ => rfl⟩
      simp
      tauto
  | some c1 =>
    rw [hc1] at m1
    simp only [Option.isSome_some, true_iff] at m1
    cases hc2 : selectColumn t "Company Name" with
    | none =>
      rw [hc2] at m2
      simp only [Option.isSome_none, Bool.false_eq_true, false_iff] at m2
      have heq : load_stock_tickers (ReadOutcome.table t) = none := by
        rw [load_stock_tickers_table, hc1, hc2]
      rw [heq]
      refine ⟨?_, fun _ => rfl⟩
      simp
      tauto
    | some c2 =>
      rw [hc2] at m2
      simp only [Option.isSome_some, true_iff] at m2
      have heq : load_stock_tickers (ReadOutcome.table t) =
          some ⟨["Ticker", "Company"],
            List.zipWith (fun a b => [a, b]) c1 c2⟩ := by
        rw [load_stock_tickers_table, hc1, hc2]
      rw [heq]
      refine ⟨?_, ?_⟩
      · simp
        exact ⟨m1, m2⟩
      · rintro (h | h)
        · exact absurd m1 h
        · exact absurd m2 h

/-- Witness for claim C10: a two-column table with headers Symbol and Name
(instead of the expected literals) yields absent. -/
theorem c10_witness :
    load_stock_tickers (ReadOutcome.table badTable) = none := by
  exact (c10_loader_exact_headers badTable).2 (Or.inl (by simp [badTable]))


/-- Single-row price frame with close 1. -/
def exRowsA : List PriceRow := [⟨1, 1, 1, 1, 1⟩]

/-- Single-row price frame with close 2. -/
def exRowsB : List PriceRow := [⟨2, 2, 2, 2, 2⟩]

/-- Environment in which every attempt completes and every fetch fails. -/
def envNoData : BatchEnv := ⟨fun _ _ => FetchOutcome.raise, fun _ => none⟩

/-- Environment in which every attempt completes and ticker A succeeds. -/
def envAllOk : BatchEnv :=
  ⟨fun _ t => if t = "A" then FetchOutcome.history exRowsA
    else FetchOutcome.raise, fun _ => none⟩

/-- Environment in which every attempt raises before processing any future. -/
def envAllRaise : BatchEnv :=
  ⟨fun _ _ => FetchOutcome.raise, fun _ => some []⟩

/-- Environment in which attempt 0 raises and every later attempt completes. -/
def envFirstRaises : BatchEnv :=
  ⟨fun _ _ => FetchOutcome.raise,
    fun i => if i = 0 then some [] else none⟩

/-- Environment for the retained-partial-results scenario: attempt 0 raises
after recording A's successful fetch, attempt 1 raises before processing
anything, attempt 2 completes with A failing and B succeeding. -/
def env3 : BatchEnv :=
  ⟨fun i t =>
      if i = 0 ∧ t = "A" then FetchOutcome.history exRowsA
      else if i = 2 ∧ t = "B" then FetchOutcome.history exRowsB
      else FetchOutcome.raise,
    fun i => if i = 0 then some ["A"]
      else if i = 1 then some [] else none⟩

/-- Environment where attempt 0 raises after recording A's successful fetch
and attempt 1 completes with A's fetch failing. -/
def env4 : BatchEnv :=
  ⟨fun i t => if i = 0 ∧ t = "A" then FetchOutcome.history exRowsA
      else FetchOutcome.raise,
    fun i => if i = 0 then some ["A"] else none⟩

/-- Claim C1: if the first concurrent batch attempt completes without raising
(all per-ticker tasks finish, absent results included), `fetch_multiple_stocks`
returns immediately after that attempt with whatever was collected; in
particular, for a list containing only failing tickers it returns an empty
mapping after exactly one batch attempt with no retry delay. -/
theorem c1_completed_attempt_returns (env : BatchEnv) (tickers : List String)
    (ma : Nat) (hma : 0 < ma) (h0 : env.raisesAt 0 = none) :
    fetch_multiple_stocks env tickers ma =
      ⟨collectResults (fetchOf env 0) tickers [], 1, 0, tickers.length⟩ ∧
    ((∀ t ∈ tickers, fetchOf env 0 t = none) →
      (fetch_multiple_stocks env tickers ma).result = [] ∧
      (fetch_multiple_stocks env tickers ma).attemptsUsed = 1 ∧
      (fetch_multiple_stocks env tickers ma).sleepTime = 0) := by
  obtain ⟨m, rfl⟩ : ∃ m, ma = m + 1 := ⟨ma - 1, by omega⟩
  have heq : fetch_multiple_stocks env tickers (m + 1) =
      ⟨collectResults (fetchOf env 0) tickers [], 1, 0, tickers.length⟩ := by
    unfold fetch_multiple_stocks
    rw [fetchLoop_complete (fetchOf env) env.raisesAt tickers m 0 [] 0 0 h0]
    simp
  refine ⟨heq, fun hall => ?_⟩
  have hc := collectResults_all_none (fetchOf env 0) tickers [] hall
  rw [heq]
  exact ⟨hc, rfl, rfl⟩

/-- Witness for claim C1: a one-ticker list whose fetch fails, first attempt
completing. -/
theorem c1_witness :
    (fetch_multiple_stocks envNoData ["X"] 3).result = [] ∧
    (fetch_multiple_stocks envNoData ["X"] 3).attemptsUsed = 1 ∧
    (fetch_multiple_stocks envNoData ["X"] 3).sleepTime = 0 := by
  exact (c1_completed_attempt_returns envNoData ["X"] 3 (by omega) rfl).2
    (fun t _ => rfl)

/-- Claim C9: for the empty ticker list (with the first attempt completing),
`fetch_multiple_stocks` returns the empty mapping on the first batch attempt,
with no per-ticker fetch invocations and no retry delay. -/
theorem c9_empty_list (env : BatchEnv) (ma : Nat) (hma : 0 < ma)
    (h0 : env.raisesAt 0 = none) :
    fetch_multiple_stocks env [] ma = ⟨[], 1, 0, 0⟩ := by
  obtain ⟨m, rfl⟩ : ∃ m, ma = m + 1 := ⟨ma - 1, by omega⟩
  unfold fetch_multiple_stocks
  rw [fetchLoop_complete (fetchOf env) env.raisesAt [] m 0 [] 0 0 h0]
  rfl

/-- Witness for claim C9 at a concrete environment. -/
theorem c9_witness : fetch_multiple_stocks envAllOk [] 3 = ⟨[], 1, 0, 0⟩ :=
  c9_empty_list envAllOk 3 (by omega) rfl

/-- Claim C6: if every one of the `max_attempts` batch attempts raises,
`fetch_multiple_stocks` returns an empty mapping (after `max_attempts`
attempts and a delay after each one). -/
theorem c6_exhaustion_empty (env : BatchEnv) (tickers : List String)
    (ma : Nat) (hall : ∀ j, j < ma → env.raisesAt j ≠ none) :
    (fetch_multiple_stocks env tickers ma).result = [] ∧
    (fetch_multiple_stocks env tickers ma).attemptsUsed = ma ∧
    (fetch_multiple_stocks env tickers ma).sleepTime = 5 * ma := by
  unfold fetch_multiple_stocks
  rw [fetchLoop_exhausts (fetchOf env) env.raisesAt tickers ma 0 [] 0 0
    (fun j hj => by simpa using hall j hj)]
  refine ⟨rfl, ?_, ?_⟩
  · show 0 + ma = ma
    omega
  · show 0 + 5 * ma = 5 * ma
    omega

/-- Witness for claim C6: three raising attempts on a one-ticker list. -/
theorem c6_witness :
    (fetch_multiple_stocks envAllRaise ["A"] 3).result = [] ∧
    (fetch_multiple_stocks envAllRaise ["A"] 3).attemptsUsed = 3 ∧
    (fetch_multiple_stocks envAllRaise ["A"] 3).sleepTime = 15 := by
  obtain ⟨h1, h2, h3⟩ := c6_exhaustion_empty envAllRaise ["A"] 3
    (fun j _ => by simp [envAllRaise])
  refine ⟨h1, h2, ?_⟩
  omega

/-- Claim C7: `fetch_multiple_stocks` always terminates, performing at most
`max_attempts` attempts; it pauses a fixed 5 time units after each raising
attempt (so the total delay is 5 per raising attempt executed, not
exponential), returns right after the first attempt that completes normally,
and stops at the attempt limit otherwise. -/
theorem c7_termination_bounds (env : BatchEnv) (tickers : List String)
    (ma : Nat) :
    (fetch_multiple_stocks env tickers ma).attemptsUsed ≤ ma ∧
    (∀ J, J < ma → env.raisesAt J = none →
      (∀ j, j < J → env.raisesAt j ≠ none) →
      (fetch_multiple_stocks env tickers ma).attemptsUsed = J + 1 ∧
      (fetch_multiple_stocks env tickers ma).sleepTime = 5 * J) ∧
    ((∀ j, j < ma → env.raisesAt j ≠ none) →
      (fetch_multiple_stocks env tickers ma).attemptsUsed = ma ∧
      (fetch_multiple_stocks env tickers ma).sleepTime = 5 * ma) := by
  refine ⟨?_, ?_, ?_⟩
  · have h := fetchLoop_attempts_le (fetchOf env) env.raisesAt tickers ma 0 [] 0 0
    unfold fetch_multiple_stocks
    omega
  · intro J hJ hc hf
    have h := fetchLoop_first_complete_stats (fetchOf env) env.raisesAt tickers
      J ma 0 [] 0 0 hJ (by simpa using hc) (fun j hj => by simpa using hf j hj)
    unfold fetch_multiple_stocks
    exact ⟨by omega, by omega⟩
  · intro hall
    have h := fetchLoop_exhausts (fetchOf env) env.raisesAt tickers ma 0 [] 0 0
      (fun j hj => by simpa using hall j hj)
    unfold fetch_multiple_stocks
    rw [h]
    constructor
    · show 0 + ma = ma
      omega
    · show 0 + 5 * ma = 5 * ma
      omega

/-- Witness for claim C7: attempt 0 raises, attempt 1 completes; two attempts
used, one 5-unit pause. -/
theorem c7_witness :
    (fetch_multiple_stocks envFirstRaises [] 3).attemptsUsed ≤ 3 ∧
    (fetch_multiple_stocks envFirstRaises [] 3).attemptsUsed = 2 ∧
    (fetch_multiple_stocks envFirstRaises [] 3).sleepTime = 5 := by
  have h := c7_termination_bounds envFirstRaises [] 3
  have h2 := h.2.1 1 (by omega) (by simp [envFirstRaises]) (fun j hj => by
    have hj0 : j = 0 := by omega
    subst hj0
    simp [envFirstRaises])
  exact ⟨h.1, by omega, by omega⟩

/-- Counterexample to claim C3 as stated: with attempts 1 and 2 raising (the
first after recording A's result) and attempt 3 completing with A's fetch
failing, the returned mapping still contains A's data from the failed first
attempt — partial results are not discarded, so the result does not reflect
attempt 3's data only. -/
theorem c3_counterexample :
    dictKeys (fetch_multiple_stocks env3 ["A", "B"] 3).result = ["A", "B"] ∧
    fetchOf env3 2 "A" = none ∧
    env3.raisesAt 0 = some ["A"] ∧ env3.raisesAt 1 = some [] ∧
    env3.raisesAt 2 = none := by
  exact ⟨rfl, rfl, rfl, rfl, rfl⟩

/-- Claim C3 as amended: partial results recorded during a failed attempt are
retained, not discarded — when attempts 1 and 2 raise (recording the processed
prefixes `l0` and `l1`) and attempt 3 completes, the returned mapping is
attempt 3's collection applied on top of the results retained from the failed
attempts (later attempts overwriting earlier entries key by key), with two
5-unit delay intervals elapsed. -/
theorem c3_amended_partials_retained (env : BatchEnv) (tickers : List String)
    (l0 l1 : List String) (h0 : env.raisesAt 0 = some l0)
    (h1 : env.raisesAt 1 = some l1) (h2 : env.raisesAt 2 = none) :
    (fetch_multiple_stocks env tickers 3).result =
      collectResults (fetchOf env 2) tickers
        (collectResults (fetchOf env 1) l1
          (collectResults (fetchOf env 0) l0 [])) ∧
    (fetch_multiple_stocks env tickers 3).sleepTime = 10 := by
  unfold fetch_multiple_stocks
  rw [fetchLoop_raise (fetchOf env) env.raisesAt tickers 2 0 [] 0 0 l0 h0]
  rw [fetchLoop_raise (fetchOf env) env.raisesAt tickers 1 1
    (collectResults (fetchOf env 0) l0 []) (0 + 5) (0 + tickers.length) l1 h1]
  rw [fetchLoop_complete (fetchOf env) env.raisesAt tickers 0 2
    (collectResults (fetchOf env 1) l1 (collectResults (fetchOf env 0) l0 []))
    (0 + 5 + 5) (0 + tickers.length + tickers.length) h2]
  exact ⟨rfl, rfl⟩

/-- Witness for the amended claim C3 at the concrete scenario environment. -/
theorem c3_witness :
    (fetch_multiple_stocks env3 ["A", "B"] 3).result =
      collectResults (fetchOf env3 2) ["A", "B"]
        (collectResults (fetchOf env3 1) []
          (collectResults (fetchOf env3 0) ["A"] [])) ∧
    (fetch_multiple_stocks env3 ["A", "B"] 3).sleepTime = 10 :=
  c3_amended_partials_retained env3 ["A", "B"] ["A"] [] rfl rfl rfl

/-- Counterexample to claim C4 as stated: ticker A appears in the returned
mapping although its fetch did not succeed on the batch attempt that completed
normally (attempt 1) — its entry was retained from raising attempt 0. -/
theorem c4_counterexample :
    dictKeys (fetch_multiple_stocks env4 ["A"] 3).result = ["A"] ∧
    env4.raisesAt 0 = some ["A"] ∧ env4.raisesAt 1 = none ∧
    fetchOf env4 1 "A" = none := by
  exact ⟨rfl, rfl, rfl, rfl⟩

/-- Claim C4 as amended: the returned mapping's key set is a subset of the
input tickers and has no duplicate keys (duplicates collapse to one entry);
a ticker appears iff its fetch succeeded during some executed attempt while
its future was processed — on the attempt that completed normally, or on an
earlier raising attempt before its exception. -/
theorem c4_amended_key_set (env : BatchEnv) (tickers : List String)
    (ma J : Nat) (a : String)
    (hwf : ∀ i l, env.raisesAt i = some l → l ⊆ tickers)
    (hJ : J < ma) (hc : env.raisesAt J = none)
    (hbefore : ∀ j, j < J → env.raisesAt j ≠ none) :
    (a ∈ dictKeys (fetch_multiple_stocks env tickers ma).result ↔
      ∃ j, j ≤ J ∧ a ∈ procAt env.raisesAt tickers j ∧
        (fetchOf env j a).isSome = true) ∧
    (a ∈ dictKeys (fetch_multiple_stocks env tickers ma).result →
      a ∈ tickers) ∧
    (dictKeys (fetch_multiple_stocks env tickers ma).result).Nodup := by
  have hmem := mem_dictKeys_fetchLoop (fetchOf env) env.raisesAt tickers
    J ma 0 [] 0 0 a hJ (by simpa using hc)
    (fun j hj => by simpa using hbefore j hj)
  have hmem2 : a ∈ dictKeys (fetch_multiple_stocks env tickers ma).result ↔
      ∃ j, j ≤ J ∧ a ∈ procAt env.raisesAt tickers j ∧
        (fetchOf env j a).isSome = true := by
    unfold fetch_multiple_stocks
    rw [hmem]
    simp [dictKeys]
  refine ⟨hmem2, ?_, ?_⟩
  · intro ha
    obtain ⟨j, _, hp, _⟩ := hmem2.mp ha
    exact procAt_subset env.raisesAt tickers hwf j hp
  · unfold fetch_multiple_stocks
    exact nodup_dictKeys_fetchLoop (fetchOf env) env.raisesAt tickers
      ma 0 [] 0 0 (by simp [dictKeys])

/-- Witness for the amended claim C4 at a concrete environment. -/
theorem c4_witness :
    "A" ∈ dictKeys (fetch_multiple_stocks envAllOk ["A"] 3).result ∧
    (dictKeys (fetch_multiple_stocks envAllOk ["A"] 3).result).Nodup := by
  have h := c4_amended_key_set envAllOk ["A"] 3 0 "A"
    (fun i l hil => by simp [envAllOk] at hil)
    (by omega) rfl (fun j hj => by omega)
  refine ⟨h.1.mpr ⟨0, Nat.le_refl 0, ?_, ?_⟩, h.2.2⟩
  · show "A" ∈ procAt envAllOk.raisesAt ["A"] 0
    simp [procAt, envAllOk]
  · rfl
